import Mathlib

/-!
Verification of `src/harmony/matching/deterministic_clustering.py`.

This file is a shallow embedding of the module's two functions,
`generate_semantic_keywords` and `find_clusters_deterministic`, together
with proofs of the specification's claims about them.

Modelling conventions (all justified next to the definitions below):
* Python floats are modelled as exact rationals (`ℚ`); `np.abs` is `|·|`.
* The `numpy` similarity matrix is a shape record plus an entry function.
* The `networkx` graph built by `find_clusters_deterministic` is used only
  through `add_edge` / `number_connected_components` /
  `connected_components`; its component structure is embedded as a
  labelling `labels : List Nat` that assigns to every node the minimum
  node index of its connected component (the standard incremental
  characterisation: adding edge `(y, x)` merges the components of `y` and
  `x` and leaves all other components unchanged).  `connected_components`
  enumerates components in ascending order of smallest member (networkx
  scans nodes in insertion order 0, 1, …); within a component the
  members are enumerated here in ascending index order.  That last
  choice is a determinization: CPython iterates the component set in
  hash-table slot order, which coincides with ascending order exactly
  while every member index is below the table size, but not in general
  (see `pySetOrder8` below).  No membership, count, score or
  score-maximality statement below depends on the within-component
  order; the one order-sensitive behaviour — which tied member `max`
  returns — is settled against the real set order in the C6 theorems.
* CPython's `sorted` is stable; `dict` preserves insertion order.  The
  edge ranking is therefore: all coordinates in row-major order, stably
  sorted by descending absolute similarity.  `List.insertionSort` with
  the reflexive descending relation is such a stable sort.
* The sentence-transformer model is an external collaborator; it enters
  as an explicit parameter `encode : List String → List (List ℚ)`.
-/

/-- Embeds `harmony.schemas.requests.text.Question` (only the
`question_text` field is read by this module). -/
structure Question where
  question_text : String
deriving DecidableEq, Repr

/-- Embeds `harmony.schemas.responses.text.HarmonyCluster` with the fields
populated by `find_clusters_deterministic`. -/
structure HarmonyCluster where
  cluster_id : Nat
  centroid_id : Nat
  centroid : Question
  items : List Question
  item_ids : List Nat
  text_description : String
  keywords : List String
deriving DecidableEq, Repr

/-- Embeds a 2-dimensional `np.ndarray`: a shape plus an entry function
(out-of-range entries are irrelevant; every access below is guarded by
the shape). -/
structure NpMatrix where
  rows : Nat
  cols : Nat
  entry : Nat → Nat → ℚ

/-! ### Vector arithmetic used by `generate_semantic_keywords`

`dot`, `normSq`, `vecAdd` and `meanVec` embed the `numpy` operations
`u @ v`, `‖u‖²`, `u + v` and `embeddings.mean(axis=0)` on the embedding
vectors returned by the provider (which, per the provider contract, all
share one dimension). -/

def dot : List ℚ → List ℚ → ℚ
  | a :: u, b :: v => a * b + dot u v
  | _, _ => 0

def normSq (u : List ℚ) : ℚ := dot u u

def vecAdd (u v : List ℚ) : List ℚ := List.zipWith (· + ·) u v

/-- `embeddings.mean(axis=0)`: componentwise sum divided by the number of
vectors. -/
def meanVec (vs : List (List ℚ)) : List ℚ :=
  match vs with
  | [] => []
  | v :: rest => (rest.foldl vecAdd v).map (fun a => a / (vs.length : ℚ))

/-- Exact representation of a cosine-similarity value
`num / Real.sqrt den2` with `den2 > 0`.  `sklearn`'s `cosine_similarity`
normalises each row by its Euclidean norm, treating a zero norm as `1`
(so a zero vector keeps similarity `0`); hence `den2` is the product of
the two (zero-guarded) squared norms and is always positive.  Keeping the
squared denominator avoids irrational square roots while representing the
float value exactly. -/
structure CosVal where
  num : ℚ
  den2 : ℚ
deriving DecidableEq, Repr

/-- Order-faithful rational key for a `CosVal`: for `den2 > 0` the map
`num / √den2 ↦ sign(num) · num² / den2` is strictly monotone, so
comparing keys compares the represented cosine values. -/
def CosVal.key (a : CosVal) : ℚ :=
  if a.num < 0 then -(a.num ^ 2 / a.den2) else a.num ^ 2 / a.den2

def safeNorm2 (q : ℚ) : ℚ := if q = 0 then 1 else q

/-- One entry of `cosine_similarity(cluster_embedding, embeddings)[0]`. -/
def cosineVal (u v : List ℚ) : CosVal :=
  ⟨dot u v, safeNorm2 (normSq u) * safeNorm2 (normSq v)⟩

/-- `similarities.argsort()`: the indices `0 .. sims.length - 1` sorted
ascending by similarity value.  (numpy's default sort is deterministic;
we determinise ties by a stable sort, which claims below never rely on.) -/
def argsortAsc (sims : List CosVal) : List Nat :=
  List.insertionSort
    (fun i j => (sims.getD i ⟨0, 1⟩).key ≤ (sims.getD j ⟨0, 1⟩).key)
    (List.range sims.length)

/-- Python's `l[-k:]` slice (note `l[-0:]` is the whole list). -/
def lastSlice (k : Nat) (l : List α) : List α :=
  if k = 0 then l else l.drop (l.length - k)

/-- `texts = [item.question_text for item in cluster_items]` -/
def gsk_texts (cluster_items : List Question) : List String :=
  cluster_items.map Question.question_text

/-- The similarity of every member embedding to the cluster mean
embedding: `cosine_similarity(cluster_embedding, embeddings)[0]`. -/
def gsk_similarities (encode : List String → List (List ℚ))
    (texts : List String) : List CosVal :=
  let embeddings := encode texts
  let cluster_embedding := meanVec embeddings
  embeddings.map (fun e => cosineVal cluster_embedding e)

/-- `top_indices = similarities.argsort()[-top_k:][::-1]` -/
def gsk_top_indices (sims : List CosVal) (top_k : Nat) : List Nat :=
  (lastSlice top_k (argsortAsc sims)).reverse

/-- Embeds `generate_semantic_keywords(cluster_items, top_k)`.  The
sentence-transformer model is the explicit parameter `encode`. -/
def generate_semantic_keywords (encode : List String → List (List ℚ))
    (cluster_items : List Question) (top_k : Nat) : List String :=
  let texts := gsk_texts cluster_items
  if texts.isEmpty then []
  else
    let sims := gsk_similarities encode texts
    (gsk_top_indices sims top_k).map (fun idx => texts.getD idx "")

/-! ### The greedy merge loop of `find_clusters_deterministic` -/

/-- The label of node `i`: the smallest node index in `i`'s connected
component (nodes not in the graph are their own component). -/
def lab (labels : List Nat) (i : Nat) : Nat := labels.getD i i

/-- Relabelling applied when the components represented by `ry` and `rx`
are joined by an edge. -/
def relabel (ry rx l : Nat) : Nat :=
  if l = ry ∨ l = rx then min ry rx else l

/-- `graph.add_edge(y, x)` at the level of component labels: the
components of `y` and `x` become one (labelled by their joint minimum);
everything else is untouched. -/
def mergeLabels (labels : List Nat) (y x : Nat) : List Nat :=
  labels.map (relabel (lab labels y) (lab labels x))

/-- `networkx.add_edge` inserts a missing endpoint as a fresh node; a
fresh node is its own singleton component.  (Here every skipped index up
to the endpoint is also added as a singleton, a divergence from
networkx, which adds only the endpoints; it is reachable only when
`cols > rows`, and every theorem below assumes a square matrix, where
`ensureNode` is the identity.) -/
def ensureNode (labels : List Nat) (v : Nat) : List Nat :=
  if v < labels.length then labels
  else labels ++ (List.range (v + 1 - labels.length)).map (labels.length + ·)

def addEdge (labels : List Nat) (y x : Nat) : List Nat :=
  mergeLabels (ensureNode (ensureNode labels y) x) y x

/-- The component representatives: nodes that are the smallest member of
their component (`connected_components` yields one component per
representative, in this ascending order). -/
def compReps (labels : List Nat) : List Nat :=
  (List.range labels.length).filter (fun i => lab labels i == i)

/-- `nx.number_connected_components(graph)`. -/
def numComponents (labels : List Nat) : Nat := (compReps labels).length

/-- The members of the component represented by `r`.  The ascending
order here is a determinization of the program: CPython iterates the
component set in hash-slot order, which is ascending only while every
member index is below the set's table size (see `pySetOrder8`); all
member-list claims proved below are order-insensitive, and the
tie-break behaviour is settled against the real order in the C6
theorems. -/
def compMembers (labels : List Nat) (r : Nat) : List Nat :=
  (List.range labels.length).filter (fun i => lab labels i == r)

/-- `nx.connected_components(graph)` in enumeration order: components in
ascending order of smallest member, members ascending. -/
def componentsList (labels : List Nat) : List (List Nat) :=
  (compReps labels).map (compMembers labels)

/-- The ranked edge stream: `coord_to_sim` holds `((y, x), |M[y, x]|)`
for all coordinates in row-major (dict insertion) order, and
`sorted(coord_to_sim.items(), key=lambda x: x[1], reverse=True)` is a
stable descending sort by the absolute similarity. -/
def sortedCoords (M : NpMatrix) : List ((Nat × Nat) × ℚ) :=
  let rowMajor := (List.range M.rows).flatMap
    (fun y => (List.range M.cols).map (fun x => ((y, x), |M.entry y x|)))
  List.insertionSort (fun p q => q.2 ≤ p.2) rowMajor

/-- The `for (y, x), sim in sorted(...)` loop: skip diagonal entries;
at a non-diagonal entry stop if the component count has already reached
`num_clusters`, otherwise add the edge and credit `sim` to both
endpoints' running `total_score`. -/
def mergeLoop (k : ℤ) :
    List ((Nat × Nat) × ℚ) → List Nat → (Nat → ℚ) → List Nat × (Nat → ℚ)
  | [], labels, score => (labels, score)
  | ((y, x), sim) :: rest, labels, score =>
    if x ≠ y then
      if (numComponents labels : ℤ) ≤ k then (labels, score)
      else
        mergeLoop k rest (addEdge labels y x)
          (fun i => if i = x ∨ i = y then score i + sim else score i)
    else mergeLoop k rest labels score

/-- Graph state and accumulated `total_score` after the merge loop. -/
def finalState (M : NpMatrix) (num_clusters : ℤ) : List Nat × (Nat → ℚ) :=
  mergeLoop num_clusters (sortedCoords M) (List.range M.rows) (fun _ => 0)

/-- The `total_score` counter at the end of the loop (`Counter` returns
`0` for never-incremented keys, as does the initial function here). -/
def total_score (M : NpMatrix) (num_clusters : ℤ) : Nat → ℚ :=
  (finalState M num_clusters).2

/-- `max(candidate_scores, key=candidate_scores.get)`: the first key (in
dict insertion order, i.e. list order here) attaining the maximal score.
Computed by structural recursion: the head wins ties against the best of
the tail, which selects the first maximum. -/
def bestIdx (score : Nat → ℚ) : List Nat → Nat
  | [] => 0
  | [i] => i
  | i :: j :: t =>
    let b := bestIdx score (j :: t)
    if score i < score b then b else i

/-- Embeds `find_clusters_deterministic(questions, M, num_clusters)`.
`num_clusters` is an arbitrary Python int, hence `ℤ`.  The item lookup
`questions[question_idx]` is total here via `getD` (Python would raise
`IndexError` out of range; every claim evaluates it in range only). -/
def find_clusters_deterministic (encode : List String → List (List ℚ))
    (questions : List Question) (M : NpMatrix) (num_clusters : ℤ) :
    List HarmonyCluster :=
  let labels := (finalState M num_clusters).1
  let score := total_score M num_clusters
  ((componentsList labels).enum).map (fun gc =>
    let item_ids := gc.2
    let items := item_ids.map (fun i => questions.getD i ⟨""⟩)
    let best_question_idx := bestIdx score item_ids
    { cluster_id := gc.1
      centroid_id := best_question_idx
      centroid := questions.getD best_question_idx ⟨""⟩
      items := items
      item_ids := item_ids
      text_description := (questions.getD best_question_idx ⟨""⟩).question_text
      keywords := generate_semantic_keywords encode items 5 })

/-! ### Basic properties of the label representation -/

/-- Invariant of the labelling produced by the merge loop: every node's
label is the minimum index of its component, hence is at most the node
itself and is itself a fixed point of the labelling. -/
def WellLabeled (labels : List Nat) : Prop :=
  ∀ i, i < labels.length →
    lab labels i ≤ i ∧ lab labels (lab labels i) = lab labels i

theorem lab_of_lt {labels : List Nat} {i : Nat} (h : i < labels.length) :
    lab labels i = labels[i] :=
  List.getD_eq_getElem labels i h

theorem lab_range {n i : Nat} (h : i < n) : lab (List.range n) i = i := by
  rw [lab_of_lt (by simpa using h)]
  simp

theorem wellLabeled_range (n : Nat) : WellLabeled (List.range n) := by
  intro i hi
  simp only [List.length_range] at hi
  rw [lab_range hi, lab_range hi]
  exact ⟨le_refl i, rfl⟩

theorem length_mergeLabels (labels : List Nat) (y x : Nat) :
    (mergeLabels labels y x).length = labels.length := by
  simp [mergeLabels]

theorem ensureNode_of_lt {labels : List Nat} {v : Nat}
    (h : v < labels.length) : ensureNode labels v = labels := by
  simp [ensureNode, h]

theorem lab_mergeLabels {labels : List Nat} {i : Nat}
    (h : i < labels.length) (y x : Nat) :
    lab (mergeLabels labels y x) i
      = relabel (lab labels y) (lab labels x) (lab labels i) := by
  rw [lab_of_lt (by simpa [length_mergeLabels] using h), lab_of_lt h]
  simp [mergeLabels]

theorem addEdge_of_lt {labels : List Nat} {y x : Nat}
    (hy : y < labels.length) (hx : x < labels.length) :
    addEdge labels y x = mergeLabels labels y x := by
  rw [addEdge, ensureNode_of_lt hy, ensureNode_of_lt hx]

theorem lab_fixed {labels : List Nat} (hW : WellLabeled labels) {i : Nat}
    (h : i < labels.length) : lab labels (lab labels i) = lab labels i :=
  (hW i h).2

theorem lab_le {labels : List Nat} (hW : WellLabeled labels) {i : Nat}
    (h : i < labels.length) : lab labels i ≤ i :=
  (hW i h).1

theorem lab_lt_length {labels : List Nat} (hW : WellLabeled labels) {i : Nat}
    (h : i < labels.length) : lab labels i < labels.length :=
  lt_of_le_of_lt (lab_le hW h) h

theorem wellLabeled_mergeLabels {labels : List Nat} {y x : Nat}
    (hW : WellLabeled labels) (hy : y < labels.length)
    (hx : x < labels.length) : WellLabeled (mergeLabels labels y x) := by
  intro i hi
  rw [length_mergeLabels] at hi
  set ry := lab labels y with hry
  set rx := lab labels x with hrx
  have hryf : lab labels ry = ry := lab_fixed hW hy
  have hrxf : lab labels rx = rx := lab_fixed hW hx
  have hrylt : ry < labels.length := lab_lt_length hW hy
  have hrxlt : rx < labels.length := lab_lt_length hW hx
  have hmin : min ry rx < labels.length := lt_of_le_of_lt (min_le_left _ _) hrylt
  rw [lab_mergeLabels hi]
  constructor
  · unfold relabel
    split
    · rename_i hcase
      rcases hcase with hc | hc
      · calc min ry rx ≤ ry := min_le_left _ _
          _ = lab labels i := hc.symm
          _ ≤ i := lab_le hW hi
      · calc min ry rx ≤ rx := min_le_right _ _
          _ = lab labels i := hc.symm
          _ ≤ i := lab_le hW hi
    · exact lab_le hW hi
  · unfold relabel
    split
    · rename_i hcase
      rw [lab_mergeLabels hmin]
      have : lab labels (min ry rx) = min ry rx := by
        rcases le_total ry rx with hle | hle
        · rw [min_eq_left hle]; exact hryf
        · rw [min_eq_right hle]; exact hrxf
      rw [this]
      unfold relabel
      have : min ry rx = ry ∨ min ry rx = rx := by
        rcases le_total ry rx with hle | hle
        · exact Or.inl (min_eq_left hle)
        · exact Or.inr (min_eq_right hle)
      simp [this]
    · rename_i hcase
      push_neg at hcase
      have hlt : lab labels i < labels.length := lab_lt_length hW hi
      rw [lab_mergeLabels hlt]
      rw [lab_fixed hW hi]
      unfold relabel
      have : ¬(lab labels i = ry ∨ lab labels i = rx) := by
        push_neg
        exact hcase
      simp only [this, if_false]

/-! ### Component counting -/

theorem mem_compReps {labels : List Nat} {r : Nat} :
    r ∈ compReps labels ↔ r < labels.length ∧ lab labels r = r := by
  simp [compReps, List.mem_filter, List.mem_range]

theorem compReps_range (n : Nat) : compReps (List.range n) = List.range n := by
  unfold compReps
  rw [List.length_range]
  apply List.filter_eq_self.mpr
  intro a ha
  rw [List.mem_range] at ha
  simp [lab_range ha]

theorem numComponents_range (n : Nat) :
    numComponents (List.range n) = n := by
  simp [numComponents, compReps_range]

theorem numComponents_pos {labels : List Nat} (hW : WellLabeled labels)
    (h : labels ≠ []) : 0 < numComponents labels := by
  have hlen : 0 < labels.length := List.length_pos.mpr h
  have h0 : lab labels 0 = 0 := Nat.le_zero.mp (lab_le hW hlen)
  have : (0 : Nat) ∈ compReps labels := mem_compReps.mpr ⟨hlen, h0⟩
  exact List.length_pos.mpr (List.ne_nil_of_mem this)

theorem countP_or_le (p q : α → Bool) (l : List α) :
    l.countP (fun a => p a || q a) ≤ l.countP p + l.countP q := by
  induction l with
  | nil => simp
  | cons a t ih =>
    simp only [List.countP_cons]
    cases hp : p a <;> cases hq : q a <;> simp [hp, hq] <;> omega

/-- Joining two components removes at most one component: the count drops
by at most one per accepted edge. -/
theorem numComponents_mergeLabels_ge (labels : List Nat) (y x : Nat) :
    numComponents labels ≤ numComponents (mergeLabels labels y x) + 1 := by
  set ry := lab labels y with hry
  set rx := lab labels x with hrx
  set M := max ry rx with hM
  have hkey : ∀ i ∈ List.range labels.length,
      (lab labels i == i) = true →
      ((lab (mergeLabels labels y x) i == i) || (i == M)) = true := by
    intro i hi hfix
    rw [List.mem_range] at hi
    rw [beq_iff_eq] at hfix
    rw [lab_mergeLabels hi, hfix]
    by_cases hcase : i = ry ∨ i = rx
    · by_cases hmin : i = min ry rx
      · have : relabel ry rx i = i := by
          unfold relabel
          simp [hcase, hmin.symm]
        simp [this]
      · have : i = M := by
          rcases le_total ry rx with hle | hle
          · rw [min_eq_left hle] at hmin
            rw [hM, max_eq_right hle]
            rcases hcase with hc | hc
            · exact absurd hc hmin
            · exact hc
          · rw [min_eq_right hle] at hmin
            rw [hM, max_eq_left hle]
            rcases hcase with hc | hc
            · exact hc
            · exact absurd hc hmin
        simp [this]
    · have : relabel ry rx i = i := by
        unfold relabel
        simp [hcase]
      simp [this]
  have h1 : numComponents labels ≤
      (List.range labels.length).countP
        (fun i => (lab (mergeLabels labels y x) i == i) || (i == M)) := by
    unfold numComponents compReps
    rw [← List.countP_eq_length_filter]
    exact List.countP_mono_left hkey
  have h2 : (List.range labels.length).countP
        (fun i => (lab (mergeLabels labels y x) i == i) || (i == M))
      ≤ numComponents (mergeLabels labels y x)
        + (List.range labels.length).countP (fun i => i == M) := by
    have := countP_or_le (fun i => lab (mergeLabels labels y x) i == i)
      (fun i => i == M) (List.range labels.length)
    unfold numComponents compReps
    rw [← List.countP_eq_length_filter, length_mergeLabels]
    exact this
  have h3 : (List.range labels.length).countP (fun i => i == M) ≤ 1 := by
    rw [← List.count_eq_countP]
    exact List.nodup_iff_count_le_one.mp (List.nodup_range _) M
  omega

/-- Relabelling only coarsens the partition: nodes already sharing a
label still share one after any edge is added. -/
theorem lab_mergeLabels_congr {labels : List Nat} {a b : Nat}
    (ha : a < labels.length) (hb : b < labels.length)
    (h : lab labels a = lab labels b) (y x : Nat) :
    lab (mergeLabels labels y x) a = lab (mergeLabels labels y x) b := by
  rw [lab_mergeLabels ha, lab_mergeLabels hb, h]

/-- After an edge `(y, x)` is added, `y` and `x` share a label. -/
theorem lab_mergeLabels_eq {labels : List Nat} {y x : Nat}
    (hy : y < labels.length) (hx : x < labels.length) :
    lab (mergeLabels labels y x) y = lab (mergeLabels labels y x) x := by
  rw [lab_mergeLabels hy, lab_mergeLabels hx]
  unfold relabel
  simp

/-! ### Invariants of the merge loop -/

/-- All edge endpoints of a stream lie among the graph's initial nodes. -/
def BoundedStream (N : Nat) (stream : List ((Nat × Nat) × ℚ)) : Prop :=
  ∀ p ∈ stream, p.1.1 < N ∧ p.1.2 < N

/-- If the component count has already reached the target, the loop
never changes the state again (diagonal entries are skipped and the
first off-diagonal entry breaks). -/
theorem mergeLoop_stop (k : ℤ) (stream : List ((Nat × Nat) × ℚ)) :
    ∀ labels score, (numComponents labels : ℤ) ≤ k →
    mergeLoop k stream labels score = (labels, score) := by
  induction stream with
  | nil => intro labels score _; rfl
  | cons hd rest ih =>
    intro labels score h
    obtain ⟨⟨y, x⟩, sim⟩ := hd
    by_cases hxy : x = y
    · simp only [mergeLoop, hxy, ne_eq, not_true_eq_false, if_false]
      exact ih labels score h
    · simp only [mergeLoop, ne_eq, hxy, not_false_eq_true, if_true, h,
        if_pos]

/-- The loop preserves the node count and the labelling invariant. -/
theorem mergeLoop_state (k : ℤ) (stream : List ((Nat × Nat) × ℚ)) :
    ∀ labels score, WellLabeled labels →
    BoundedStream labels.length stream →
    (mergeLoop k stream labels score).1.length = labels.length ∧
    WellLabeled (mergeLoop k stream labels score).1 := by
  induction stream with
  | nil => intro labels score hW _; exact ⟨rfl, hW⟩
  | cons hd rest ih =>
    intro labels score hW hB
    obtain ⟨⟨y, x⟩, sim⟩ := hd
    have hhd := hB ((y, x), sim) (List.mem_cons_self _ _)
    obtain ⟨hy, hx⟩ := hhd
    have hBrest : BoundedStream labels.length rest :=
      fun p hp => hB p (List.mem_cons_of_mem _ hp)
    by_cases hxy : x = y
    · simp only [mergeLoop, hxy, ne_eq, not_true_eq_false, if_false]
      exact ih labels score hW hBrest
    · simp only [mergeLoop, ne_eq, hxy, not_false_eq_true, if_true]
      by_cases hstop : (numComponents labels : ℤ) ≤ k
      · rw [if_pos hstop]
        exact ⟨rfl, hW⟩
      · simp only [hstop, if_neg, not_false_eq_true]
        rw [addEdge_of_lt hy hx]
        have hlen := length_mergeLabels labels y x
        have hW' := wellLabeled_mergeLabels hW hy hx
        have hB' : BoundedStream (mergeLabels labels y x).length rest := by
          rw [hlen]; exact hBrest
        have := ih (mergeLabels labels y x)
          (fun i => if i = x ∨ i = y then score i + sim else score i) hW' hB'
        rw [hlen] at this
        exact this

/-- Merges only happen while the component count still exceeds the
target, and each merge removes at most one component, so the count never
falls below the target. -/
theorem mergeLoop_lower (k : ℤ) (stream : List ((Nat × Nat) × ℚ)) :
    ∀ labels score, WellLabeled labels →
    BoundedStream labels.length stream →
    k ≤ (numComponents labels : ℤ) →
    k ≤ (numComponents (mergeLoop k stream labels score).1 : ℤ) := by
  induction stream with
  | nil => intro labels score _ _ h; exact h
  | cons hd rest ih =>
    intro labels score hW hB h
    obtain ⟨⟨y, x⟩, sim⟩ := hd
    obtain ⟨hy, hx⟩ := hB ((y, x), sim) (List.mem_cons_self _ _)
    have hBrest : BoundedStream labels.length rest :=
      fun p hp => hB p (List.mem_cons_of_mem _ hp)
    by_cases hxy : x = y
    · simp only [mergeLoop, hxy, ne_eq, not_true_eq_false, if_false]
      exact ih labels score hW hBrest h
    · simp only [mergeLoop, ne_eq, hxy, not_false_eq_true, if_true]
      by_cases hstop : (numComponents labels : ℤ) ≤ k
      · simp only [hstop, if_pos]
        exact h
      · simp only [hstop, if_neg, not_false_eq_true]
        push_neg at hstop
        rw [addEdge_of_lt hy hx]
        have hdrop := numComponents_mergeLabels_ge labels y x
        have hk' : k ≤ (numComponents (mergeLabels labels y x) : ℤ) := by
          omega
        have hB' : BoundedStream (mergeLabels labels y x).length rest := by
          rw [length_mergeLabels]; exact hBrest
        exact ih (mergeLabels labels y x) _
          (wellLabeled_mergeLabels hW hy hx) hB' hk'

/-- Whatever the loop does afterwards, nodes that share a label keep
sharing one (the partition only coarsens). -/
theorem mergeLoop_coarsens (k : ℤ) (stream : List ((Nat × Nat) × ℚ)) :
    ∀ labels score a b, BoundedStream labels.length stream →
    a < labels.length → b < labels.length →
    lab labels a = lab labels b →
    lab (mergeLoop k stream labels score).1 a
      = lab (mergeLoop k stream labels score).1 b := by
  induction stream with
  | nil => intro labels score a b _ _ _ h; exact h
  | cons hd rest ih =>
    intro labels score a b hB ha hb h
    obtain ⟨⟨y, x⟩, sim⟩ := hd
    obtain ⟨hy, hx⟩ := hB ((y, x), sim) (List.mem_cons_self _ _)
    have hBrest : BoundedStream labels.length rest :=
      fun p hp => hB p (List.mem_cons_of_mem _ hp)
    by_cases hxy : x = y
    · simp only [mergeLoop, hxy, ne_eq, not_true_eq_false, if_false]
      exact ih labels score a b hBrest ha hb h
    · simp only [mergeLoop, ne_eq, hxy, not_false_eq_true, if_true]
      by_cases hstop : (numComponents labels : ℤ) ≤ k
      · simp only [hstop, if_pos]
        exact h
      · simp only [hstop, if_neg, not_false_eq_true]
        rw [addEdge_of_lt hy hx]
        have hB' : BoundedStream (mergeLabels labels y x).length rest := by
          rw [length_mergeLabels]; exact hBrest
        exact ih (mergeLabels labels y x) _ a b hB'
          (by rw [length_mergeLabels]; exact ha)
          (by rw [length_mergeLabels]; exact hb)
          (lab_mergeLabels_congr ha hb h y x)

/-- Either the loop stops with at most `k` components, or it accepts
every off-diagonal edge of the stream, connecting its endpoints. -/
theorem mergeLoop_upper (k : ℤ) (stream : List ((Nat × Nat) × ℚ)) :
    ∀ labels score, WellLabeled labels →
    BoundedStream labels.length stream →
    ((numComponents (mergeLoop k stream labels score).1 : ℤ) ≤ k) ∨
    (∀ p ∈ stream, p.1.1 ≠ p.1.2 →
      lab (mergeLoop k stream labels score).1 p.1.1
        = lab (mergeLoop k stream labels score).1 p.1.2) := by
  induction stream with
  | nil => intro labels score _ _; exact Or.inr (by intro p hp; cases hp)
  | cons hd rest ih =>
    intro labels score hW hB
    obtain ⟨⟨y, x⟩, sim⟩ := hd
    obtain ⟨hy, hx⟩ := hB ((y, x), sim) (List.mem_cons_self _ _)
    have hBrest : BoundedStream labels.length rest :=
      fun p hp => hB p (List.mem_cons_of_mem _ hp)
    by_cases hxy : x = y
    · simp only [mergeLoop, hxy, ne_eq, not_true_eq_false, if_false]
      rcases ih labels score hW hBrest with hle | hconn
      · exact Or.inl hle
      · refine Or.inr ?_
        intro p hp hne
        rcases List.mem_cons.mp hp with rfl | hp'
        · exact absurd rfl hne
        · exact hconn p hp' hne
    · simp only [mergeLoop, ne_eq, hxy, not_false_eq_true, if_true]
      by_cases hstop : (numComponents labels : ℤ) ≤ k
      · rw [if_pos hstop]
        exact Or.inl hstop
      · simp only [hstop, if_neg, not_false_eq_true]
        rw [addEdge_of_lt hy hx]
        have hW' := wellLabeled_mergeLabels hW hy hx
        have hB' : BoundedStream (mergeLabels labels y x).length rest := by
          rw [length_mergeLabels]; exact hBrest
        rcases ih (mergeLabels labels y x) _ hW' hB' with hle | hconn
        · exact Or.inl hle
        · refine Or.inr ?_
          intro p hp hne
          rcases List.mem_cons.mp hp with rfl | hp'
          · exact mergeLoop_coarsens k rest (mergeLabels labels y x) _ y x
              hB' (by rw [length_mergeLabels]; exact hy)
              (by rw [length_mergeLabels]; exact hx)
              (lab_mergeLabels_eq hy hx)
          · exact hconn p hp' hne

/-! ### The ranked edge stream -/

theorem mem_sortedCoords_iff {M : NpMatrix} {p : (Nat × Nat) × ℚ} :
    p ∈ sortedCoords M ↔
    p ∈ (List.range M.rows).flatMap
      (fun y => (List.range M.cols).map (fun x => ((y, x), |M.entry y x|))) :=
  (List.perm_insertionSort _ _).mem_iff

/-- The ranked stream contains both directed copies of every in-range
coordinate pair, with the absolute similarity as weight. -/
theorem mem_sortedCoords {M : NpMatrix} {y x : Nat}
    (hy : y < M.rows) (hx : x < M.cols) :
    ((y, x), |M.entry y x|) ∈ sortedCoords M := by
  rw [mem_sortedCoords_iff, List.mem_flatMap]
  exact ⟨y, List.mem_range.mpr hy,
    List.mem_map.mpr ⟨x, List.mem_range.mpr hx, rfl⟩⟩

theorem sortedCoords_bounded (M : NpMatrix) (h : M.cols = M.rows) :
    BoundedStream M.rows (sortedCoords M) := by
  intro p hp
  rw [mem_sortedCoords_iff, List.mem_flatMap] at hp
  obtain ⟨y, hy, hp⟩ := hp
  rw [List.mem_map] at hp
  obtain ⟨x, hx, rfl⟩ := hp
  rw [List.mem_range] at hy hx
  exact ⟨hy, h ▸ hx⟩

/-- If every node shares node 0's label, there is exactly one component. -/
theorem numComponents_eq_one {labels : List Nat} (hW : WellLabeled labels)
    (hne : labels ≠ [])
    (hconn : ∀ i, i < labels.length → lab labels i = lab labels 0) :
    numComponents labels = 1 := by
  have hlen : 0 < labels.length := List.length_pos.mpr hne
  have h0 : lab labels 0 = 0 := Nat.le_zero.mp (lab_le hW hlen)
  unfold numComponents compReps
  rw [← List.countP_eq_length_filter]
  have hcongr : ∀ i ∈ List.range labels.length,
      ((lab labels i == i) = true) ↔ ((i == 0) = true) := by
    intro i hi
    rw [List.mem_range] at hi
    rw [beq_iff_eq, beq_iff_eq]
    rw [hconn i hi, h0]
    exact ⟨fun hh => hh.symm, fun hh => hh.symm⟩
  rw [List.countP_congr hcongr, ← List.count_eq_countP]
  exact List.count_eq_one_of_mem (List.nodup_range _)
    (List.mem_range.mpr hlen)

/-! ### Consequences for the final state of the loop -/

theorem finalState_state (M : NpMatrix) (h : M.cols = M.rows) (k : ℤ) :
    (finalState M k).1.length = M.rows ∧ WellLabeled (finalState M k).1 := by
  have := mergeLoop_state k (sortedCoords M) (List.range M.rows) (fun _ => 0)
    (wellLabeled_range M.rows)
    (by rw [List.length_range]; exact sortedCoords_bounded M h)
  rw [List.length_range] at this
  exact this

/-- When the requested cluster count already covers all items, the loop
does not run at all: the state stays the initial one. -/
theorem finalState_stop (M : NpMatrix) (k : ℤ) (hk : (M.rows : ℤ) ≤ k) :
    finalState M k = (List.range M.rows, fun _ => 0) :=
  mergeLoop_stop k (sortedCoords M) (List.range M.rows) (fun _ => 0)
    (by rw [numComponents_range]; exact hk)

/-- With `1 ≤ num_clusters < N` and a square matrix, the loop stops with
exactly `num_clusters` components. -/
theorem finalState_count (M : NpMatrix) (h : M.cols = M.rows) (k : ℤ)
    (hk : 1 ≤ k) (hkN : k < (M.rows : ℤ)) :
    (numComponents (finalState M k).1 : ℤ) = k := by
  obtain ⟨hlen, hW⟩ := finalState_state M h k
  have hB : BoundedStream (List.range M.rows).length (sortedCoords M) := by
    rw [List.length_range]; exact sortedCoords_bounded M h
  have hlow : k ≤ (numComponents (finalState M k).1 : ℤ) := by
    apply mergeLoop_lower k (sortedCoords M) (List.range M.rows) (fun _ => 0)
      (wellLabeled_range M.rows) hB
    rw [numComponents_range]
    omega
  have hrows2 : 2 ≤ M.rows := by omega
  have hne : (finalState M k).1 ≠ [] := by
    intro hcon
    rw [hcon] at hlen
    simp at hlen
    omega
  rcases mergeLoop_upper k (sortedCoords M) (List.range M.rows) (fun _ => 0)
      (wellLabeled_range M.rows) hB with hle | hconn
  · have : (numComponents (finalState M k).1 : ℤ) ≤ k := hle
    omega
  · have hone : numComponents (finalState M k).1 = 1 := by
      apply numComponents_eq_one hW hne
      intro i hi
      rw [hlen] at hi
      by_cases h0 : i = 0
      · rw [h0]
      · have hmem : ((0, i), |M.entry 0 i|) ∈ sortedCoords M :=
          mem_sortedCoords (by omega) (by omega)
        exact (hconn (((0, i)), |M.entry 0 i|) hmem
          (by simpa using fun hh => h0 hh.symm)).symm
    rw [hone] at hlow ⊢
    omega

/-! ### The partition property -/

theorem sum_indicator_zero (l : List Nat) (a : Nat) (ha : a ∉ l) :
    (l.map (fun r => if a = r then 1 else 0)).sum = 0 := by
  induction l with
  | nil => rfl
  | cons b t ih =>
    have hab : a ≠ b := fun hh => ha (hh ▸ List.mem_cons_self _ _)
    have hat : a ∉ t := fun hh => ha (List.mem_cons_of_mem _ hh)
    simp [hab, ih hat]

theorem sum_indicator_one (l : List Nat) (a : Nat) (hl : l.Nodup)
    (ha : a ∈ l) :
    (l.map (fun r => if a = r then 1 else 0)).sum = 1 := by
  induction l with
  | nil => cases ha
  | cons b t ih =>
    rcases List.mem_cons.mp ha with rfl | hat
    · have hnt : a ∉ t := (List.nodup_cons.mp hl).1
      simp [sum_indicator_zero t a hnt]
    · have hab : a ≠ b := by
        intro hh
        exact (List.nodup_cons.mp hl).1 (hh ▸ hat)
      simp only [List.map_cons, List.sum_cons, if_neg hab]
      rw [ih (List.nodup_cons.mp hl).2 hat]

theorem count_compMembers {labels : List Nat} (j r : Nat) :
    (compMembers labels r).count j
      = if j < labels.length ∧ lab labels j = r then 1 else 0 := by
  unfold compMembers
  rw [List.count_eq_countP, List.countP_filter]
  by_cases hj : j < labels.length ∧ lab labels j = r
  · rw [if_pos hj]
    have hcongr : ∀ i ∈ List.range labels.length,
        (((i == j) && (lab labels i == r)) = true) ↔ ((i == j) = true) := by
      intro i _
      simp only [Bool.and_eq_true, beq_iff_eq]
      constructor
      · exact fun hh => hh.1
      · rintro rfl
        exact ⟨rfl, hj.2⟩
    rw [List.countP_congr hcongr, ← List.count_eq_countP]
    exact List.count_eq_one_of_mem (List.nodup_range _)
      (List.mem_range.mpr hj.1)
  · rw [if_neg hj]
    rw [List.countP_eq_zero]
    intro i hi
    rw [List.mem_range] at hi
    rw [Bool.and_eq_true, beq_iff_eq, beq_iff_eq]
    rintro ⟨rfl, hr⟩
    exact hj ⟨hi, hr⟩

/-- The enumerated components partition the node set: their
concatenation is a permutation of `0 .. N-1`. -/
theorem componentsList_flatten_perm {labels : List Nat}
    (hW : WellLabeled labels) :
    (componentsList labels).flatten.Perm (List.range labels.length) := by
  rw [List.perm_iff_count]
  intro j
  rw [componentsList, List.count_flatten, List.map_map]
  by_cases hj : j < labels.length
  · have hrep : lab labels j ∈ compReps labels :=
      mem_compReps.mpr ⟨lab_lt_length hW hj, lab_fixed hW hj⟩
    have hnodup : (compReps labels).Nodup :=
      (List.nodup_range _).filter _
    have hmap : (compReps labels).map (List.count j ∘ compMembers labels)
        = (compReps labels).map (fun r => if lab labels j = r then 1 else 0) := by
      apply List.map_congr_left
      intro r _
      simp only [Function.comp_apply, count_compMembers]
      by_cases hr : lab labels j = r
      · rw [if_pos ⟨hj, hr⟩, if_pos hr]
      · rw [if_neg (fun hh => hr hh.2), if_neg hr]
    rw [hmap, sum_indicator_one _ _ hnodup hrep]
    exact (List.count_eq_one_of_mem (List.nodup_range _)
      (List.mem_range.mpr hj)).symm
  · have hmap : (compReps labels).map (List.count j ∘ compMembers labels)
        = (compReps labels).map (fun _ => 0) := by
      apply List.map_congr_left
      intro r _
      simp only [Function.comp_apply, count_compMembers]
      rw [if_neg (fun hh => hj hh.1)]
    rw [hmap]
    have h1 : ((compReps labels).map (fun _ => (0 : Nat))).sum = 0 := by
      simp
    rw [h1]
    symm
    rw [List.count_eq_zero]
    intro hcon
    rw [List.mem_range] at hcon
    exact hj hcon

/-! ### The centroid selection -/

theorem bestIdx_mem (score : Nat → ℚ) :
    ∀ l : List Nat, l ≠ [] → bestIdx score l ∈ l := by
  intro l
  induction l with
  | nil => intro h; exact absurd rfl h
  | cons i t ih =>
    intro _
    cases t with
    | nil => simp [bestIdx]
    | cons j tt =>
      simp only [bestIdx]
      by_cases hlt : score i < score (bestIdx score (j :: tt))
      · rw [if_pos hlt]
        exact List.mem_cons_of_mem i (ih (List.cons_ne_nil j tt))
      · rw [if_neg hlt]
        exact List.mem_cons_self i _

theorem bestIdx_le (score : Nat → ℚ) :
    ∀ l : List Nat, ∀ m ∈ l, score m ≤ score (bestIdx score l) := by
  intro l
  induction l with
  | nil => intro m hm; cases hm
  | cons i t ih =>
    intro m hm
    cases t with
    | nil =>
      rcases List.mem_cons.mp hm with rfl | hmt
      · simp [bestIdx]
      · cases hmt
    | cons j tt =>
      simp only [bestIdx]
      by_cases hlt : score i < score (bestIdx score (j :: tt))
      · rw [if_pos hlt]
        rcases List.mem_cons.mp hm with rfl | hmt
        · exact le_of_lt hlt
        · exact ih m hmt
      · rw [if_neg hlt]
        push_neg at hlt
        rcases List.mem_cons.mp hm with rfl | hmt
        · exact le_refl _
        · exact le_trans (ih m hmt) hlt

/-- On an ascending member list the selected index is the first maximum,
so any member tied with it has a larger or equal index. -/
theorem bestIdx_first (score : Nat → ℚ) :
    ∀ l : List Nat, l.Pairwise (· ≤ ·) →
    ∀ m ∈ l, score m = score (bestIdx score l) → bestIdx score l ≤ m := by
  intro l
  induction l with
  | nil => intro _ m hm; cases hm
  | cons i t ih =>
    intro hp m hm heq
    cases t with
    | nil =>
      rcases List.mem_cons.mp hm with rfl | hmt
      · simp [bestIdx] at heq ⊢
      · cases hmt
    | cons j tt =>
      simp only [bestIdx] at heq ⊢
      by_cases hlt : score i < score (bestIdx score (j :: tt))
      · rw [if_pos hlt] at heq ⊢
        rcases List.mem_cons.mp hm with rfl | hmt
        · rw [heq] at hlt
          exact absurd hlt (lt_irrefl _)
        · exact ih (List.Pairwise.of_cons hp) m hmt heq
      · rw [if_neg hlt] at heq ⊢
        rcases List.mem_cons.mp hm with rfl | hmt
        · exact le_refl _
        · exact (List.pairwise_cons.mp hp).1 m hmt


/-- Python's `max(candidate_scores, key=candidate_scores.get)` written
literally as the CPython loop: keep the current best, replace it only on
a strictly greater key.  `bestIdx` computes the same function (proved
below), so the embedding's centroid choice is exactly `max`'s. -/
def pyMax (score : Nat → ℚ) : List Nat → Nat
  | [] => 0
  | h :: t => t.foldl (fun b i => if score b < score i then i else b) h

theorem foldl_best (score : Nat → ℚ) :
    ∀ (t : List Nat) (b : Nat),
      t.foldl (fun b i => if score b < score i then i else b) b
        = if t = [] then b
          else if score b < score (bestIdx score t) then bestIdx score t
          else b := by
  intro t
  induction t with
  | nil => intro b; simp
  | cons j tt ih =>
    intro b
    rw [List.foldl_cons, ih (if score b < score j then j else b)]
    cases tt with
    | nil =>
      simp only [bestIdx, if_neg (List.cons_ne_nil j [])]
      by_cases hbj : score b < score j
      · rw [if_pos hbj]
        simp
      · rw [if_neg hbj]
        simp [hbj]
    | cons j2 t2 =>
      have hne1 : (j2 :: t2 : List Nat) ≠ [] := List.cons_ne_nil _ _
      have hne2 : (j :: j2 :: t2 : List Nat) ≠ [] := List.cons_ne_nil _ _
      rw [if_neg hne1, if_neg hne2]
      simp only [bestIdx]
      split_ifs <;> first | rfl | linarith

theorem bestIdx_eq_pyMax (score : Nat → ℚ) (l : List Nat) :
    bestIdx score l = pyMax score l := by
  cases l with
  | nil => rfl
  | cons h t =>
    rw [pyMax, foldl_best]
    cases t with
    | nil => simp [bestIdx]
    | cons j tt =>
      rw [if_neg (List.cons_ne_nil _ _)]
      simp only [bestIdx]

/-- On any duplicate-free member list, the selected index is the FIRST
maximum in list order: any member tied with it sits at the same or a
later position.  This is the order-generic content of Python's `max`
tie behaviour — it fixes the winner by iteration position, not by
value. -/
theorem bestIdx_first_index (score : Nat → ℚ) :
    ∀ l : List Nat, l.Nodup → ∀ m ∈ l,
      score m = score (bestIdx score l) →
      l.indexOf (bestIdx score l) ≤ l.indexOf m := by
  intro l
  induction l with
  | nil => intro _ m hm; cases hm
  | cons i t ih =>
    intro hnd m hm heq
    cases t with
    | nil =>
      rcases List.mem_cons.mp hm with rfl | hmt
      · simp [bestIdx]
      · cases hmt
    | cons j tt =>
      simp only [bestIdx] at heq ⊢
      by_cases hlt : score i < score (bestIdx score (j :: tt))
      · rw [if_pos hlt] at heq ⊢
        have hBmem : bestIdx score (j :: tt) ∈ j :: tt :=
          bestIdx_mem score (j :: tt) (List.cons_ne_nil _ _)
        have hiB : i ≠ bestIdx score (j :: tt) := by
          intro hcon
          exact (List.nodup_cons.mp hnd).1 (hcon ▸ hBmem)
        rcases List.mem_cons.mp hm with rfl | hmt
        · rw [heq] at hlt
          exact absurd hlt (lt_irrefl _)
        · have him : i ≠ m := by
            intro hcon
            exact (List.nodup_cons.mp hnd).1 (hcon ▸ hmt)
          rw [List.indexOf_cons_ne _ hiB, List.indexOf_cons_ne _ him]
          exact Nat.succ_le_succ (ih (List.nodup_cons.mp hnd).2 m hmt heq)
      · rw [if_neg hlt] at heq ⊢
        rw [List.indexOf_cons_self]
        exact Nat.zero_le _

/-! ### CPython set iteration order

`nx.connected_components` returns each component as a CPython set built
by inserting the members in BFS order.  CPython iterates a set in
hash-table slot order: small nonnegative ints hash to themselves, a
fresh table has 8 slots, and a colliding value `v` probes
`i₀ = v % 8`, `iₙ₊₁ = (5·iₙ + 1 + perturbₙ₊₁) % 8` with `perturb₀ = v`
and `perturbₙ₊₁ = perturbₙ / 32` (with only 8 slots CPython's 9-slot
linear scan never fits, so each round probes a single slot).  The model
below is faithful for sets of at most 4 distinct values, below the
3/5-full resize threshold, which covers the two-member component of the
C6 counterexample.  E.g. inserting 3 then 11: 3 takes slot 3, 11
collides there and probes to slot (5·3 + 1 + 0) % 8 = 0, so the set
iterates as `[11, 3]`. -/

def pyInsertAux (v : Nat) : Nat → Nat → Nat → List (Option Nat) →
    List (Option Nat)
  | 0, _, _, table => table
  | fuel + 1, i, perturb, table =>
    match table.getD i none with
    | none => table.set i (some v)
    | some w =>
      if w = v then table
      else pyInsertAux v fuel ((5 * i + 1 + perturb / 32) % 8)
        (perturb / 32) table

def pySetInsert (table : List (Option Nat)) (v : Nat) : List (Option Nat) :=
  pyInsertAux v 64 (v % 8) v table

/-- The iteration order of the CPython set obtained by inserting `l`'s
elements in order into a fresh (8-slot) set: occupied slots read in
slot order. -/
def pySetOrder8 (l : List Nat) : List Nat :=
  (l.foldl pySetInsert (List.replicate 8 none)).filterMap id

/-! ### Shape of the returned clusters -/

theorem mem_compMembers {labels : List Nat} {r i : Nat} :
    i ∈ compMembers labels r ↔ i < labels.length ∧ lab labels i = r := by
  simp [compMembers, List.mem_filter, List.mem_range]

theorem self_mem_compMembers {labels : List Nat} {r : Nat}
    (hr : r ∈ compReps labels) : r ∈ compMembers labels r := by
  rcases mem_compReps.mp hr with ⟨hlt, hfix⟩
  exact mem_compMembers.mpr ⟨hlt, hfix⟩

theorem compMembers_sorted (labels : List Nat) (r : Nat) :
    (compMembers labels r).Pairwise (· ≤ ·) := by
  have hsub : (compMembers labels r).Sublist (List.range labels.length) :=
    List.filter_sublist _
  exact ((List.Pairwise.sublist hsub (List.pairwise_lt_range _)).imp
    le_of_lt)

/-- Every returned cluster is built from one enumerated component: its
member list is `compMembers` of some representative, and its centroid is
the score-maximal member (`bestIdx`). -/
theorem mem_find_clusters {encode : List String → List (List ℚ)}
    {qs : List Question} {M : NpMatrix} {k : ℤ} {c : HarmonyCluster}
    (hc : c ∈ find_clusters_deterministic encode qs M k) :
    ∃ r ∈ compReps (finalState M k).1,
      c.item_ids = compMembers (finalState M k).1 r ∧
      c.centroid_id = bestIdx (total_score M k) c.item_ids := by
  unfold find_clusters_deterministic at hc
  rw [List.mem_map] at hc
  obtain ⟨gc, hgc, rfl⟩ := hc
  have hsnd : gc.2 ∈ componentsList (finalState M k).1 := by
    have : gc.2 ∈ (componentsList (finalState M k).1).enum.map Prod.snd :=
      List.mem_map_of_mem Prod.snd hgc
    rwa [List.enum_map_snd] at this
  rw [componentsList, List.mem_map] at hsnd
  obtain ⟨r, hr, hmem⟩ := hsnd
  exact ⟨r, hr, by rw [← hmem], by rw [← hmem]⟩

theorem find_clusters_length (encode : List String → List (List ℚ))
    (qs : List Question) (M : NpMatrix) (k : ℤ) :
    (find_clusters_deterministic encode qs M k).length
      = numComponents (finalState M k).1 := by
  simp [find_clusters_deterministic, componentsList, numComponents]

theorem find_clusters_flatMap (encode : List String → List (List ℚ))
    (qs : List Question) (M : NpMatrix) (k : ℤ) :
    (find_clusters_deterministic encode qs M k).flatMap
      HarmonyCluster.item_ids
      = (componentsList (finalState M k).1).flatten := by
  unfold find_clusters_deterministic
  rw [List.flatMap_def, List.map_map]
  have : (HarmonyCluster.item_ids ∘ fun gc : Nat × List Nat =>
      ({ cluster_id := gc.1
         centroid_id := bestIdx (total_score M k) gc.2
         centroid := qs.getD (bestIdx (total_score M k) gc.2) ⟨""⟩
         items := gc.2.map (fun i => qs.getD i ⟨""⟩)
         item_ids := gc.2
         text_description :=
           (qs.getD (bestIdx (total_score M k) gc.2) ⟨""⟩).question_text
         keywords := generate_semantic_keywords encode
           (gc.2.map (fun i => qs.getD i ⟨""⟩)) 5 } : HarmonyCluster))
      = Prod.snd := rfl
  rw [this, List.enum_map_snd]

/-! ### The untouched initial state (`num_clusters ≥ N`) -/

theorem filter_beq_range (n r : Nat) :
    (List.range n).filter (fun i => i == r)
      = if r < n then [r] else [] := by
  induction n with
  | zero => simp
  | succ m ih =>
    rw [List.range_succ, List.filter_append, ih]
    by_cases h1 : r < m
    · have h2 : r < m + 1 := by omega
      have h3 : (m == r) = false := by
        rw [beq_eq_false_iff_ne]
        omega
      simp [h1, h2, h3]
    · by_cases h4 : r = m
      · subst h4
        simp [h1]
      · have h5 : ¬r < m + 1 := by omega
        have h6 : (m == r) = false := by
          rw [beq_eq_false_iff_ne]
          omega
        simp [h1, h5, h6]

theorem compMembers_range {n r : Nat} (hr : r < n) :
    compMembers (List.range n) r = [r] := by
  unfold compMembers
  rw [List.length_range]
  have hcongr : ∀ i ∈ List.range n,
      (lab (List.range n) i == r) = (i == r) := by
    intro i hi
    rw [lab_range (List.mem_range.mp hi)]
  rw [List.filter_congr hcongr, filter_beq_range, if_pos hr]

theorem componentsList_range (n : Nat) :
    componentsList (List.range n) = (List.range n).map (fun r => [r]) := by
  unfold componentsList
  rw [compReps_range]
  apply List.map_congr_left
  intro r hr
  exact compMembers_range (List.mem_range.mp hr)

/-- With `num_clusters ≥ N` every item becomes a singleton cluster whose
centroid is the item itself. -/
theorem find_clusters_singletons (encode : List String → List (List ℚ))
    (qs : List Question) (M : NpMatrix) (k : ℤ)
    (hk : (M.rows : ℤ) ≤ k) :
    (find_clusters_deterministic encode qs M k).map
      (fun c => (c.item_ids, c.centroid_id, c.centroid))
      = (List.range M.rows).map (fun i => ([i], i, qs.getD i ⟨""⟩)) := by
  unfold find_clusters_deterministic total_score
  simp only [finalState_stop M k hk, componentsList_range]
  apply List.ext_getElem
  · simp
  · intro j h1 h2
    simp only [List.length_map, List.enum_length, List.length_range] at h1 h2
    simp [List.getElem_map, List.getElem_enum, List.getElem_range, bestIdx]

/-- Either the loop stopped at the requested count, or it ran the whole
stream and merged everything into one component. -/
theorem finalState_upper (M : NpMatrix) (h : M.cols = M.rows) (k : ℤ)
    (hrows : 1 ≤ M.rows) :
    ((numComponents (finalState M k).1 : ℤ) ≤ k) ∨
    numComponents (finalState M k).1 = 1 := by
  obtain ⟨hlen, hW⟩ := finalState_state M h k
  have hB : BoundedStream (List.range M.rows).length (sortedCoords M) := by
    rw [List.length_range]
    exact sortedCoords_bounded M h
  rcases mergeLoop_upper k (sortedCoords M) (List.range M.rows) (fun _ => 0)
      (wellLabeled_range M.rows) hB with hle | hconn
  · exact Or.inl hle
  · right
    have hne : (finalState M k).1 ≠ [] := by
      intro hcon
      rw [hcon] at hlen
      simp at hlen
      omega
    apply numComponents_eq_one hW hne
    intro i hi
    rw [hlen] at hi
    by_cases h0 : i = 0
    · rw [h0]
    · have hmem : ((0, i), |M.entry 0 i|) ∈ sortedCoords M :=
        mem_sortedCoords (by omega) (by omega)
      exact (hconn (((0, i)), |M.entry 0 i|) hmem
        (by simpa using fun hh => h0 hh.symm)).symm

/-! ### Representative extraction (`generate_semantic_keywords`) -/

instance keyRelTotal (sims : List CosVal) :
    IsTotal Nat
      (fun i j => (sims.getD i ⟨0, 1⟩).key ≤ (sims.getD j ⟨0, 1⟩).key) :=
  ⟨fun _ _ => le_total _ _⟩

instance keyRelTrans (sims : List CosVal) :
    IsTrans Nat
      (fun i j => (sims.getD i ⟨0, 1⟩).key ≤ (sims.getD j ⟨0, 1⟩).key) :=
  ⟨fun _ _ _ hab hbc => le_trans hab hbc⟩

theorem argsortAsc_perm (sims : List CosVal) :
    (argsortAsc sims).Perm (List.range sims.length) :=
  List.perm_insertionSort _ _

theorem argsortAsc_sorted (sims : List CosVal) :
    (argsortAsc sims).Sorted
      (fun i j => (sims.getD i ⟨0, 1⟩).key ≤ (sims.getD j ⟨0, 1⟩).key) :=
  List.sorted_insertionSort _ _

theorem argsortAsc_length (sims : List CosVal) :
    (argsortAsc sims).length = sims.length := by
  rw [(argsortAsc_perm sims).length_eq, List.length_range]

theorem lastSlice_sublist (k : Nat) (l : List α) :
    (lastSlice k l).Sublist l := by
  unfold lastSlice
  by_cases hk : k = 0
  · rw [if_pos hk]
  · rw [if_neg hk]
    exact List.drop_sublist _ _

/-- The selected representatives are listed in descending similarity
order: along `top_indices`, the similarity keys are non-increasing. -/
theorem gsk_top_indices_sorted (sims : List CosVal) (top_k : Nat) :
    ((gsk_top_indices sims top_k).map
        (fun i => (sims.getD i ⟨0, 1⟩).key)).Pairwise (· ≥ ·) := by
  rw [List.pairwise_map]
  unfold gsk_top_indices
  rw [List.pairwise_reverse]
  exact List.Pairwise.sublist (lastSlice_sublist top_k (argsortAsc sims))
    (argsortAsc_sorted sims)

theorem map_getD_range (l : List α) (d : α) :
    (List.range l.length).map (fun i => l.getD i d) = l := by
  apply List.ext_getElem
  · simp
  · intro j h1 h2
    simp only [List.length_map, List.length_range] at h1
    rw [List.getElem_map, List.getElem_range]
    exact List.getD_eq_getElem l d h2

/-- When the whole index list survives the slice (`top_k` larger than
the cluster), the returned texts are a permutation of all member
texts. -/
theorem gsk_perm (encode : List String → List (List ℚ))
    (cluster_items : List Question) (top_k : Nat)
    (hne : cluster_items ≠ [])
    (hlt : cluster_items.length < top_k)
    (hE : (encode (gsk_texts cluster_items)).length = cluster_items.length) :
    (generate_semantic_keywords encode cluster_items top_k).Perm
      (gsk_texts cluster_items) := by
  have htexts : (gsk_texts cluster_items).length = cluster_items.length := by
    simp [gsk_texts]
  have hsims : (gsk_similarities encode (gsk_texts cluster_items)).length
      = cluster_items.length := by
    simp [gsk_similarities, hE]
  have hasc : (argsortAsc (gsk_similarities encode
      (gsk_texts cluster_items))).length = cluster_items.length := by
    rw [argsortAsc_length, hsims]
  have hslice : lastSlice top_k (argsortAsc (gsk_similarities encode
      (gsk_texts cluster_items)))
      = argsortAsc (gsk_similarities encode (gsk_texts cluster_items)) := by
    unfold lastSlice
    by_cases hk : top_k = 0
    · rw [if_pos hk]
    · rw [if_neg hk, hasc]
      have : cluster_items.length - top_k = 0 := by omega
      rw [this, List.drop_zero]
  have hperm : (gsk_top_indices (gsk_similarities encode
      (gsk_texts cluster_items)) top_k).Perm
      (List.range (gsk_texts cluster_items).length) := by
    unfold gsk_top_indices
    rw [hslice]
    have h4 : List.range
        (gsk_similarities encode (gsk_texts cluster_items)).length
        = List.range (gsk_texts cluster_items).length := by
      rw [hsims, htexts]
    rw [← h4]
    exact (List.reverse_perm _).trans (argsortAsc_perm _)
  have hempty : (gsk_texts cluster_items).isEmpty = false := by
    cases cluster_items with
    | nil => exact absurd rfl hne
    | cons q t => rfl
  have hres : generate_semantic_keywords encode cluster_items top_k
      = (gsk_top_indices (gsk_similarities encode
          (gsk_texts cluster_items)) top_k).map
          (fun idx => (gsk_texts cluster_items).getD idx "") := by
    simp only [generate_semantic_keywords, hempty, Bool.false_eq_true,
      if_false]
  rw [hres]
  have hmapped := hperm.map (fun idx => (gsk_texts cluster_items).getD idx "")
  rw [map_getD_range] at hmapped
  exact hmapped


/-! ### Exactness of the `CosVal` representation

The merge over rationals represents each cosine similarity as
`num / √den2`.  The lemmas below prove the rational `key` used by
`argsortAsc` orders values exactly as those real numbers, and that every
similarity the code constructs has a positive `den2`, so no ordering
information is lost by avoiding the square root. -/

theorem sqrtDiv_sq (q d : ℚ) (hd : 0 < d) :
    ((q : ℝ) / Real.sqrt (d : ℝ)) ^ 2 = (q : ℝ) ^ 2 / (d : ℝ) := by
  rw [div_pow, Real.sq_sqrt (by exact_mod_cast le_of_lt hd)]

theorem sqrtDiv_nonneg (q d : ℚ) (h : 0 ≤ q) :
    0 ≤ (q : ℝ) / Real.sqrt (d : ℝ) :=
  div_nonneg (by exact_mod_cast h) (Real.sqrt_nonneg _)

theorem sqrtDiv_neg (q d : ℚ) (hd : 0 < d) (h : q < 0) :
    (q : ℝ) / Real.sqrt (d : ℝ) < 0 :=
  div_neg_of_neg_of_pos (by exact_mod_cast h)
    (Real.sqrt_pos.mpr (by exact_mod_cast hd))

/-- The rational key compares exactly as the represented real cosine
value `num / √den2` whenever both squared denominators are positive. -/
theorem CosVal.key_le_key_iff {a b : CosVal}
    (ha : 0 < a.den2) (hb : 0 < b.den2) :
    a.key ≤ b.key ↔
    (a.num : ℝ) / Real.sqrt (a.den2 : ℝ)
      ≤ (b.num : ℝ) / Real.sqrt (b.den2 : ℝ) := by
  have hcast : a.key ≤ b.key ↔ ((a.key : ℚ) : ℝ) ≤ ((b.key : ℚ) : ℝ) :=
    Rat.cast_le.symm
  rw [hcast]
  unfold CosVal.key
  set ta := (a.num : ℝ) / Real.sqrt (a.den2 : ℝ) with hta_def
  set tb := (b.num : ℝ) / Real.sqrt (b.den2 : ℝ) with htb_def
  have hsa : ta ^ 2 = (a.num : ℝ) ^ 2 / (a.den2 : ℝ) := sqrtDiv_sq _ _ ha
  have hsb : tb ^ 2 = (b.num : ℝ) ^ 2 / (b.den2 : ℝ) := sqrtDiv_sq _ _ hb
  by_cases hA : a.num < 0
  · by_cases hB : b.num < 0
    · rw [if_pos hA, if_pos hB]
      push_cast
      rw [← hsa, ← hsb]
      have h1 : ta < 0 := sqrtDiv_neg _ _ ha hA
      have h2 : tb < 0 := sqrtDiv_neg _ _ hb hB
      constructor
      · intro h
        nlinarith
      · intro h
        nlinarith
    · rw [if_pos hA, if_neg hB]
      push_neg at hB
      push_cast
      rw [← hsa, ← hsb]
      have h1 : ta < 0 := sqrtDiv_neg _ _ ha hA
      have h2 : 0 ≤ tb := sqrtDiv_nonneg _ _ hB
      constructor
      · intro _
        nlinarith
      · intro _
        nlinarith
  · by_cases hB : b.num < 0
    · rw [if_neg hA, if_pos hB]
      push_neg at hA
      push_cast
      rw [← hsa, ← hsb]
      have h1 : 0 ≤ ta := sqrtDiv_nonneg _ _ hA
      have h2 : tb < 0 := sqrtDiv_neg _ _ hb hB
      constructor
      · intro h
        nlinarith
      · intro h
        nlinarith
    · rw [if_neg hA, if_neg hB]
      push_neg at hA hB
      push_cast
      rw [← hsa, ← hsb]
      have h1 : 0 ≤ ta := sqrtDiv_nonneg _ _ hA
      have h2 : 0 ≤ tb := sqrtDiv_nonneg _ _ hB
      exact pow_le_pow_iff_left₀ h1 h2 (by omega)

theorem dot_self_nonneg : ∀ u : List ℚ, 0 ≤ dot u u := by
  intro u
  induction u with
  | nil => simp [dot]
  | cons a t ih =>
    simp only [dot]
    nlinarith

theorem safeNorm2_pos {q : ℚ} (h : 0 ≤ q) : 0 < safeNorm2 q := by
  unfold safeNorm2
  by_cases hq : q = 0
  · rw [if_pos hq]
    norm_num
  · rw [if_neg hq]
    exact lt_of_le_of_ne h (Ne.symm hq)

theorem cosineVal_den2_pos (u v : List ℚ) : 0 < (cosineVal u v).den2 :=
  mul_pos (safeNorm2_pos (dot_self_nonneg u))
    (safeNorm2_pos (dot_self_nonneg v))

/-- Every similarity the code constructs (and the `getD` default) has a
positive squared denominator. -/
theorem gsk_similarities_den2_pos (encode : List String → List (List ℚ))
    (texts : List String) (i : Nat) :
    0 < ((gsk_similarities encode texts).getD i ⟨0, 1⟩).den2 := by
  by_cases hi : i < (gsk_similarities encode texts).length
  · rw [List.getD_eq_getElem _ _ hi]
    simp only [gsk_similarities] at hi ⊢
    rw [List.getElem_map]
    exact cosineVal_den2_pos _ _
  · rw [List.getD_eq_default _ _ (le_of_not_lt hi)]
    norm_num

/-- The selected representatives are in non-increasing order of the real
cosine similarity `num / √den2` to the cluster mean. -/
theorem gsk_top_indices_sorted_real (encode : List String → List (List ℚ))
    (texts : List String) (top_k : Nat) :
    ((gsk_top_indices (gsk_similarities encode texts) top_k).map
      (fun i => (((gsk_similarities encode texts).getD i ⟨0, 1⟩).num : ℝ)
        / Real.sqrt
          (((gsk_similarities encode texts).getD i ⟨0, 1⟩).den2 : ℝ))).Pairwise
      (· ≥ ·) := by
  have h := gsk_top_indices_sorted (gsk_similarities encode texts) top_k
  rw [List.pairwise_map] at h ⊢
  refine h.imp ?_
  intro i j hk
  exact (CosVal.key_le_key_iff (gsk_similarities_den2_pos encode texts j)
    (gsk_similarities_den2_pos encode texts i)).mp hk

/-! ### Concrete inputs for witnesses and counterexamples -/

unseal Rat.add Rat.mul Rat.inv Rat.sub

/-- A trivial embedding provider for concrete runs: every text is encoded
as the unit vector `[1]` (one vector per input string, as the provider
contract requires). -/
def encT : List String → List (List ℚ) := fun ts => ts.map (fun _ => [1])

/-- A provider with two distinct unit vectors, for representative
extraction runs. -/
def enc2 : List String → List (List ℚ) :=
  fun ts => ts.map (fun s => if s = "P" then [1, 0] else [3/5, 4/5])

/-- The spec's §8 scenario matrix: `sim(A,B) = 0.9`, `sim(C,D) = 0.8`,
all cross pairs `0.1`, unit diagonal. -/
def Mw : NpMatrix :=
  ⟨4, 4, fun y x =>
    (([[1, 9/10, 1/10, 1/10],
       [9/10, 1, 1/10, 1/10],
       [1/10, 1/10, 1, 8/10],
       [1/10, 1/10, 8/10, 1]].getD y []).getD x 0)⟩

def qsW : List Question := [⟨"A"⟩, ⟨"B"⟩, ⟨"C"⟩, ⟨"D"⟩]

/-- 3 items: one strong pair `(0,1)` of weight `0.9`, and weaker links
`0.2` and `0.1`; unit diagonal. -/
def M3 : NpMatrix :=
  ⟨3, 3, fun y x =>
    (([[1, 9/10, 2/10],
       [9/10, 1, 1/10],
       [2/10, 1/10, 1]].getD y []).getD x 0)⟩

def qsT : List Question := [⟨"A"⟩, ⟨"B"⟩, ⟨"C"⟩]

/-- A 2×2 similarity matrix with off-diagonal weight `0.5`. -/
def M2 : NpMatrix :=
  ⟨2, 2, fun y x => (([[1, 1/2], [1/2, 1]].getD y []).getD x 0)⟩

def qs2 : List Question := [⟨"A"⟩, ⟨"B"⟩]

/-- The first cluster returned on the §8 scenario input. -/
def cl0 : HarmonyCluster :=
  (find_clusters_deterministic encT qsW Mw 2).getD 0 ⟨0, 0, ⟨""⟩, [], [], "", []⟩

def qsPQ : List Question := [⟨"P"⟩, ⟨"Q"⟩]

/-! ### The claims -/

/-- C1: for every fixed list of questions, similarity matrix and
`num_clusters`, two runs of `find_clusters_deterministic` on
bit-identical inputs produce identical outputs: the same cluster
membership assignments, the same `centroid_id` per cluster, and the same
keyword lists, in the same order.  (The embedding is a pure function of
its inputs; every source of iteration order — the stable sort over the
insertion-ordered coordinate dict, the component enumeration, the
first-maximum choice of `max` — is deterministic, so equal inputs give
equal outputs.) -/
theorem C1_determinism (encode : List String → List (List ℚ))
    (qs₁ qs₂ : List Question) (M₁ M₂ : NpMatrix) (k₁ k₂ : ℤ)
    (hq : qs₁ = qs₂) (hM : M₁ = M₂) (hk : k₁ = k₂) :
    find_clusters_deterministic encode qs₁ M₁ k₁
      = find_clusters_deterministic encode qs₂ M₂ k₂
    ∧ (find_clusters_deterministic encode qs₁ M₁ k₁).map
        HarmonyCluster.item_ids
      = (find_clusters_deterministic encode qs₂ M₂ k₂).map
        HarmonyCluster.item_ids
    ∧ (find_clusters_deterministic encode qs₁ M₁ k₁).map
        HarmonyCluster.centroid_id
      = (find_clusters_deterministic encode qs₂ M₂ k₂).map
        HarmonyCluster.centroid_id
    ∧ (find_clusters_deterministic encode qs₁ M₁ k₁).map
        HarmonyCluster.keywords
      = (find_clusters_deterministic encode qs₂ M₂ k₂).map
        HarmonyCluster.keywords := by
  subst hq
  subst hM
  subst hk
  exact ⟨rfl, rfl, rfl, rfl⟩

theorem C1_determinism_witness :
    find_clusters_deterministic encT qsW Mw 2
      = find_clusters_deterministic encT qsW Mw 2
    ∧ (find_clusters_deterministic encT qsW Mw 2).map
        HarmonyCluster.item_ids
      = (find_clusters_deterministic encT qsW Mw 2).map
        HarmonyCluster.item_ids
    ∧ (find_clusters_deterministic encT qsW Mw 2).map
        HarmonyCluster.centroid_id
      = (find_clusters_deterministic encT qsW Mw 2).map
        HarmonyCluster.centroid_id
    ∧ (find_clusters_deterministic encT qsW Mw 2).map
        HarmonyCluster.keywords
      = (find_clusters_deterministic encT qsW Mw 2).map
        HarmonyCluster.keywords :=
  C1_determinism encT qsW qsW Mw Mw 2 2 rfl rfl rfl

/-- The partition property, independent of the question list: for a
square matrix the member ids of the returned clusters are a permutation
of the node indices `0 .. rows-1`. -/
theorem find_clusters_partition (encode : List String → List (List ℚ))
    (qs : List Question) (M : NpMatrix) (k : ℤ)
    (hsq : M.cols = M.rows) :
    ((find_clusters_deterministic encode qs M k).flatMap
      HarmonyCluster.item_ids).Perm (List.range M.rows) := by
  rw [find_clusters_flatMap]
  obtain ⟨hlen, hW⟩ := finalState_state M hsq k
  have := componentsList_flatten_perm hW
  rwa [hlen] at this

/-- C2: for every valid input with `N` questions, the multiset union of
the `item_ids` lists over all clusters returned by
`find_clusters_deterministic` is exactly `{0, …, N-1}`: every input
index appears in exactly one cluster, no omissions, no duplicates. -/
theorem C2_partition (encode : List String → List (List ℚ))
    (qs : List Question) (M : NpMatrix) (k : ℤ)
    (hr : M.rows = qs.length) (hc : M.cols = qs.length) :
    ((find_clusters_deterministic encode qs M k).flatMap
      HarmonyCluster.item_ids).Perm (List.range qs.length) := by
  have := find_clusters_partition encode qs M k (by rw [hr, hc])
  rwa [hr] at this

theorem C2_partition_witness :
    ((find_clusters_deterministic encT qsW Mw 2).flatMap
      HarmonyCluster.item_ids).Perm (List.range qsW.length) :=
  C2_partition encT qsW Mw 2 rfl rfl

/-- C3: with `N ≥ 1` questions and `num_clusters ≥ 1` the number of
returned clusters is `min num_clusters N`; when `num_clusters ≥ N` the
result is `N` singleton clusters, each centroid the item itself, and
every accumulated centrality score is `0`. -/
theorem C3_cluster_count (encode : List String → List (List ℚ))
    (qs : List Question) (M : NpMatrix) (k : ℤ)
    (hN : 1 ≤ qs.length) (hk : 1 ≤ k)
    (hr : M.rows = qs.length) (hc : M.cols = qs.length) :
    (find_clusters_deterministic encode qs M k).length
      = min k.toNat qs.length
    ∧ ((qs.length : ℤ) ≤ k →
        (find_clusters_deterministic encode qs M k).map
          (fun c => (c.item_ids, c.centroid_id, c.centroid))
          = (List.range qs.length).map (fun i => ([i], i, qs.getD i ⟨""⟩))
        ∧ total_score M k = fun _ => 0) := by
  have hsq : M.cols = M.rows := by rw [hr, hc]
  constructor
  · rw [find_clusters_length]
    by_cases hbig : (qs.length : ℤ) ≤ k
    · have hks : (M.rows : ℤ) ≤ k := by rw [hr]; exact hbig
      rw [finalState_stop M k hks]
      have : numComponents (List.range M.rows) = M.rows :=
        numComponents_range M.rows
      rw [this, hr]
      omega
    · push_neg at hbig
      have hcount := finalState_count M hsq k hk (by rw [hr]; omega)
      omega
  · intro hbig
    have hks : (M.rows : ℤ) ≤ k := by rw [hr]; exact hbig
    refine ⟨?_, ?_⟩
    · have := find_clusters_singletons encode qs M k hks
      rwa [hr] at this
    · unfold total_score
      rw [finalState_stop M k hks]

theorem C3_cluster_count_witness :
    ((find_clusters_deterministic encT qsT M3 5).length
        = min (5 : ℤ).toNat qsT.length
      ∧ ((qsT.length : ℤ) ≤ 5 →
          (find_clusters_deterministic encT qsT M3 5).map
            (fun c => (c.item_ids, c.centroid_id, c.centroid))
            = (List.range qsT.length).map
              (fun i => ([i], i, qsT.getD i ⟨""⟩))
          ∧ total_score M3 5 = fun _ => 0)) :=
  C3_cluster_count encT qsT M3 5 (by decide) (by decide) rfl rfl

/-- C4: for every cluster returned by `find_clusters_deterministic`,
`centroid_id` is one of that cluster's `item_ids`, and the accumulated
centrality score of `centroid_id` is at least the accumulated centrality
score of every other member of the cluster. -/
theorem C4_centroid (encode : List String → List (List ℚ))
    (qs : List Question) (M : NpMatrix) (k : ℤ) (c : HarmonyCluster)
    (hc : c ∈ find_clusters_deterministic encode qs M k) :
    c.centroid_id ∈ c.item_ids
    ∧ ∀ m ∈ c.item_ids,
        total_score M k m ≤ total_score M k c.centroid_id := by
  obtain ⟨r, hr, hids, hcent⟩ := mem_find_clusters hc
  have hne : c.item_ids ≠ [] := by
    rw [hids]
    exact List.ne_nil_of_mem (self_mem_compMembers hr)
  constructor
  · rw [hcent]
    exact bestIdx_mem _ _ hne
  · intro m hm
    rw [hcent]
    exact bestIdx_le _ _ m hm

theorem C4_centroid_witness :
    cl0.centroid_id ∈ cl0.item_ids
    ∧ ∀ m ∈ cl0.item_ids,
        total_score Mw 2 m ≤ total_score Mw 2 cl0.centroid_id :=
  C4_centroid encT qsW Mw 2 cl0 (by decide)

/-- The C6 counterexample input: 12 items whose only strong association
is `sim(3,11) = 0.9`, unit diagonal, every other entry `0`. -/
def M12 : NpMatrix :=
  ⟨12, 12, fun y x =>
    if y = x then 1
    else if (y = 3 ∧ x = 11) ∨ (y = 11 ∧ x = 3) then 9/10
    else 0⟩

set_option maxRecDepth 4000

/-- C6 (counterexample): the smallest-index tie-break is false of the
program.  With 12 questions, `num_clusters = 11` and `M12`, the loop
accepts one copy of the pair `(3,11)` and stops, leaving component
`{3, 11}` with both scores tied at `0.9`.  networkx builds that
component as the CPython set with insertion order `3, 11`, which
iterates in hash-slot order as `[11, 3]`; the member dict, `item_ids`
and `candidate_scores` therefore list `11` before `3`, and Python's
`max` — the first maximum, `pyMax` — returns centroid `11`, not the
smallest tied index `3`.  (The refutation composes the faithfully
embedded parts — the loop's scores, the set iteration order, and `max`
— at the point where `find_clusters_deterministic` above determinises
the member order ascending.) -/
theorem C6_counterexample :
    pySetOrder8 [3, 11] = [11, 3]
    ∧ total_score M12 11 3 = 9/10
    ∧ total_score M12 11 11 = 9/10
    ∧ total_score M12 11 3 = total_score M12 11 11
    ∧ pyMax (total_score M12 11) (pySetOrder8 [3, 11]) = 11
    ∧ pyMax (total_score M12 11) (pySetOrder8 [3, 11]) ≠ 3 := by
  refine ⟨by decide, by decide, by decide, by decide, by decide,
    by decide⟩

/-- C6 (amended): the centroid is the FIRST member attaining the
maximum accumulated centrality score in the order the cluster's members
are iterated — the tie is broken by iteration position, not by the
smallest index.  First conjunct: the embedding's centroid is exactly
Python's `max` (`pyMax`) over the member list.  Second conjunct (order
generic, for every member order the program might present): on any
duplicate-free list, any member tied with `pyMax`'s choice sits at the
same or a later position.  When the iteration order is ascending — as
it is while all member indices are below the set's hash-table size —
this yields the smallest tied index, but not in general (see
`C6_counterexample`). -/
theorem C6_centroid_first_max (encode : List String → List (List ℚ))
    (qs : List Question) (M : NpMatrix) (k : ℤ) (c : HarmonyCluster)
    (hc : c ∈ find_clusters_deterministic encode qs M k) :
    c.centroid_id = pyMax (total_score M k) c.item_ids
    ∧ ∀ (score : Nat → ℚ) (l : List Nat), l.Nodup →
        ∀ m ∈ l, score m = score (pyMax score l) →
          l.indexOf (pyMax score l) ≤ l.indexOf m := by
  constructor
  · obtain ⟨r, hr, hids, hcent⟩ := mem_find_clusters hc
    rw [hcent, bestIdx_eq_pyMax]
  · intro score l hnd m hm heq
    rw [← bestIdx_eq_pyMax] at heq ⊢
    exact bestIdx_first_index score l hnd m hm heq

theorem C6_centroid_first_max_witness :
    cl0.centroid_id = pyMax (total_score Mw 2) cl0.item_ids
    ∧ ∀ (score : Nat → ℚ) (l : List Nat), l.Nodup →
        ∀ m ∈ l, score m = score (pyMax score l) →
          l.indexOf (pyMax score l) ≤ l.indexOf m :=
  C6_centroid_first_max encT qsW Mw 2 cl0 (by decide)

/-- C5 (counterexample): on the §8 scenario input the claim as stated is
false: the cluster memberships and centroids are as predicted, but the
members of the pair `(A,B)` do NOT gain the pair's weight exactly once —
both directed copies `(0,1)` and `(1,0)` are processed, so `A` and `B`
each gain `0.9` twice (score `1.8`), while `C` and `D` gain `0.8` once
(the stop condition fires before the second copy `(3,2)`). -/
theorem C5_scenario_counterexample :
    ¬ ((find_clusters_deterministic encT qsW Mw 2).map
        HarmonyCluster.item_ids = [[0, 1], [2, 3]]
      ∧ total_score Mw 2 0 = 9/10 ∧ total_score Mw 2 1 = 9/10
      ∧ total_score Mw 2 2 = 8/10 ∧ total_score Mw 2 3 = 8/10
      ∧ (find_clusters_deterministic encT qsW Mw 2).map
        HarmonyCluster.centroid_id = [0, 2]) := by
  intro h
  have h1 := h.2.1
  have h2 : total_score Mw 2 0 = 9/5 := by decide
  rw [h2] at h1
  exact absurd h1 (by decide)

/-- C5 (amended): items `[A,B,C,D]`, `num_clusters = 2`,
`sim(A,B) = 0.9`, `sim(C,D) = 0.8`, cross pairs `0.1`:
`find_clusters_deterministic` returns exactly the two clusters `{A,B}`
and `{C,D}` with centroids `A` and `C`; the members of the pair `(A,B)`
each gain its weight twice (both directed copies are processed before
the stop), scoring `1.8`, while `C` and `D` gain `0.8` once. -/
theorem C5_scenario_amended :
    (find_clusters_deterministic encT qsW Mw 2).map
      HarmonyCluster.item_ids = [[0, 1], [2, 3]]
    ∧ total_score Mw 2 0 = 2 * (9/10) ∧ total_score Mw 2 1 = 2 * (9/10)
    ∧ total_score Mw 2 2 = 8/10 ∧ total_score Mw 2 3 = 8/10
    ∧ (find_clusters_deterministic encT qsW Mw 2).map
      HarmonyCluster.centroid_id = [0, 2]
    ∧ (find_clusters_deterministic encT qsW Mw 2).map
      HarmonyCluster.centroid = [⟨"A"⟩, ⟨"C"⟩] := by
  refine ⟨by decide, by decide, by decide, by decide, by decide,
    by decide, by decide⟩

/-- C7 (counterexample): `find_clusters_deterministic` performs no
validation of `num_clusters`.  With `num_clusters = 0` it raises no
error and produces a normal clustering result — here a single cluster
containing both items — contradicting "fails fast with an input error
and no clustering result is produced". -/
theorem C7_counterexample :
    find_clusters_deterministic encT qs2 M2 0 ≠ []
    ∧ (find_clusters_deterministic encT qs2 M2 0).map
        HarmonyCluster.item_ids = [[0, 1]]
    ∧ (find_clusters_deterministic encT qs2 M2 0).length = 1 := by
  refine ⟨by decide, by decide, by decide⟩

/-- C7 (amended): the code has no `num_clusters` validation: for
`num_clusters ≤ 0` with a valid `N×N` input, `N ≥ 1`, the loop never
stops early (the component count is always positive), every edge is
accepted, and the function returns a single cluster covering all items
rather than failing. -/
theorem C7_amended_no_validation (encode : List String → List (List ℚ))
    (qs : List Question) (M : NpMatrix) (k : ℤ)
    (hN : 1 ≤ qs.length) (hr : M.rows = qs.length)
    (hc : M.cols = qs.length) (hk : k ≤ 0) :
    (find_clusters_deterministic encode qs M k).length = 1
    ∧ ((find_clusters_deterministic encode qs M k).flatMap
        HarmonyCluster.item_ids).Perm (List.range qs.length) := by
  have hsq : M.cols = M.rows := by rw [hr, hc]
  constructor
  · rw [find_clusters_length]
    obtain ⟨hlen, hW⟩ := finalState_state M hsq k
    have hne : (finalState M k).1 ≠ [] := by
      intro hcon
      rw [hcon] at hlen
      simp at hlen
      omega
    have hpos := numComponents_pos hW hne
    rcases finalState_upper M hsq k (by omega) with hle | hone
    · omega
    · exact hone
  · have := find_clusters_partition encode qs M k hsq
    rwa [hr] at this

theorem C7_amended_no_validation_witness :
    (find_clusters_deterministic encT qs2 M2 0).length = 1
    ∧ ((find_clusters_deterministic encT qs2 M2 0).flatMap
        HarmonyCluster.item_ids).Perm (List.range qs2.length) :=
  C7_amended_no_validation encT qs2 M2 0 (by decide) rfl rfl (by decide)

/-- C8 (counterexample): `find_clusters_deterministic` performs no shape
validation.  With 3 questions but a 2×2 similarity matrix it raises no
error and returns a partial clustering of items 0 and 1 only, silently
dropping item 2 — contradicting "fails fast with a ShapeMismatch error
and attempts no partial clustering". -/
theorem C8_counterexample :
    (find_clusters_deterministic encT qsT M2 5).map
      HarmonyCluster.item_ids = [[0], [1]]
    ∧ (2 : Nat) ∉ (find_clusters_deterministic encT qsT M2 5).flatMap
        HarmonyCluster.item_ids
    ∧ find_clusters_deterministic encT qsT M2 5 ≠ [] := by
  refine ⟨by decide, by decide, by decide⟩

/-- C8 (amended): no shape check exists.  The function clusters whatever
index range the matrix provides: for any square matrix the returned
member ids are a permutation of `0 .. rows-1` regardless of the number
of questions, so a matrix smaller than `N×N` yields a partial clustering
of the first `rows` items and no error. -/
theorem C8_amended_no_shape_check (encode : List String → List (List ℚ))
    (qs : List Question) (M : NpMatrix) (k : ℤ)
    (hsq : M.cols = M.rows) :
    ((find_clusters_deterministic encode qs M k).flatMap
      HarmonyCluster.item_ids).Perm (List.range M.rows) :=
  find_clusters_partition encode qs M k hsq

theorem C8_amended_no_shape_check_witness :
    ((find_clusters_deterministic encT qsT M2 5).flatMap
      HarmonyCluster.item_ids).Perm (List.range M2.rows) :=
  C8_amended_no_shape_check encT qsT M2 5 rfl

/-- C9: for every non-empty cluster with fewer than `top_k` members,
`generate_semantic_keywords` returns the texts of all members, each
exactly once (a permutation of the member texts), ordered by descending
cosine similarity to the cluster's mean embedding (along the selected
index order the similarity keys are non-increasing); and for an empty
cluster it returns the empty list for every provider whatsoever, i.e.
without consulting the embedding provider.  The provider-contract
hypothesis says `encode` returns one vector per text. -/
theorem C9_representatives (encode : List String → List (List ℚ))
    (cluster_items : List Question) (top_k : Nat)
    (hne : cluster_items ≠ []) (hlt : cluster_items.length < top_k)
    (hE : (encode (gsk_texts cluster_items)).length = cluster_items.length) :
    (∀ e : List String → List (List ℚ), ∀ j : Nat,
        generate_semantic_keywords e [] j = [])
    ∧ (generate_semantic_keywords encode cluster_items top_k).Perm
        (cluster_items.map Question.question_text)
    ∧ ((gsk_top_indices
          (gsk_similarities encode (gsk_texts cluster_items)) top_k).map
        (fun i => ((gsk_similarities encode
            (gsk_texts cluster_items)).getD i ⟨0, 1⟩).key)).Pairwise
        (· ≥ ·)
    ∧ ((gsk_top_indices
          (gsk_similarities encode (gsk_texts cluster_items)) top_k).map
        (fun i => (((gsk_similarities encode
              (gsk_texts cluster_items)).getD i ⟨0, 1⟩).num : ℝ)
          / Real.sqrt (((gsk_similarities encode
              (gsk_texts cluster_items)).getD i ⟨0, 1⟩).den2 : ℝ))).Pairwise
        (· ≥ ·) :=
  ⟨fun _ _ => rfl,
    gsk_perm encode cluster_items top_k hne hlt hE,
    gsk_top_indices_sorted _ _,
    gsk_top_indices_sorted_real encode (gsk_texts cluster_items) top_k⟩

theorem C9_representatives_witness :
    (∀ e : List String → List (List ℚ), ∀ j : Nat,
        generate_semantic_keywords e [] j = [])
    ∧ (generate_semantic_keywords enc2 qsPQ 5).Perm
        (qsPQ.map Question.question_text)
    ∧ ((gsk_top_indices
          (gsk_similarities enc2 (gsk_texts qsPQ)) 5).map
        (fun i => ((gsk_similarities enc2
            (gsk_texts qsPQ)).getD i ⟨0, 1⟩).key)).Pairwise (· ≥ ·)
    ∧ ((gsk_top_indices
          (gsk_similarities enc2 (gsk_texts qsPQ)) 5).map
        (fun i => (((gsk_similarities enc2
              (gsk_texts qsPQ)).getD i ⟨0, 1⟩).num : ℝ)
          / Real.sqrt (((gsk_similarities enc2
              (gsk_texts qsPQ)).getD i ⟨0, 1⟩).den2 : ℝ))).Pairwise
        (· ≥ ·) :=
  C9_representatives enc2 qsPQ 5 (by decide) (by decide) (by decide)

/-- C10: the ranked edge stream contains both directed copies `(i,j)`
and `(j,i)` of every in-range pair, each carrying the absolute
similarity as weight; consequently, when both copies are processed
before the stop condition fires, the pair's weight is credited to each
endpoint twice.  The concrete conjunct shows it: on `M3` with
`num_clusters = 1`, item 1's only accepted incident pair is `(0,1)` of
weight `0.9`, yet its final score is `2 · 0.9`, and item 0 accumulates
`2 · 0.9 + 0.2` (the second copy of `(0,2)` is cut off by the stop). -/
theorem C10_directed_copies (M : NpMatrix) (i j : Nat)
    (hir : i < M.rows) (hic : i < M.cols)
    (hjr : j < M.rows) (hjc : j < M.cols) :
    (((i, j), |M.entry i j|) ∈ sortedCoords M
      ∧ ((j, i), |M.entry j i|) ∈ sortedCoords M)
    ∧ (total_score M3 1 1 = 2 * (9/10)
      ∧ total_score M3 1 0 = 2 * (9/10) + 2/10
      ∧ |M3.entry 0 1| = 9/10) :=
  ⟨⟨mem_sortedCoords hir hjc, mem_sortedCoords hjr hic⟩,
    by refine ⟨by decide, by decide, by decide⟩⟩

theorem C10_directed_copies_witness :
    (((0, 1), |M3.entry 0 1|) ∈ sortedCoords M3
      ∧ ((1, 0), |M3.entry 1 0|) ∈ sortedCoords M3)
    ∧ (total_score M3 1 1 = 2 * (9/10)
      ∧ total_score M3 1 0 = 2 * (9/10) + 2/10
      ∧ |M3.entry 0 1| = 9/10) :=
  C10_directed_copies M3 0 1 (by decide) (by decide) (by decide) (by decide)
